import Mathlib

/-!
# Verification of the forums_scraper core (Database Merger + Incremental Analyzer)

Shallow embedding, translated from the repository sources:

* `src/analysis/tokenization/token_analyzer.py` — the incremental token
  analyzer (`TokenAnalyzer.calculate_tokens`, `_calculate_tokens_simple`,
  `_calculate_tokens_worker_static`, `get_posts_to_analyze`,
  `save_analysis_result`, `update_analysis_stats`,
  `_process_batch_sequential`, `_process_batch_multiprocessing`,
  `process_batch`).
* `src/scripts/merge_all_databases.py` — the database merger
  (`DatabaseMerger.merge_database`, `get_max_ids_from_target`,
  `merge_all_databases`, `create_target_database`).

External collaborators (the spaCy tokenizer, the `hashlib.md5` digest, the
wall clock, and the success/failure of an individual SQLite commit) are
modelled as explicit function parameters: the code under analysis only
passes their results around, never inspects them.

Database tables are modelled as Lean lists of row structures; SQLite's
`INSERT OR IGNORE` / `INSERT OR REPLACE` become explicit list operations
keyed by the uniqueness constraints actually present in the DDL the code
executes.
-/

set_option autoImplicit false

namespace ForumsScraper

/-! ## Tokenization (token_analyzer.py lines 208-301, 661-682, 1023-1044)

Python `str.split()` with no argument splits on runs of whitespace and
never yields empty fragments.  `len` on a Python `str` counts Unicode code
points, which matches `String.length` on Lean's `Char`s. -/

/-- Helper for `pySplit`: walk the characters, accumulating the current
word (in reverse) and emitting it whenever a whitespace run begins. -/
def pySplitGo : List Char → List Char → List String
  | [], cur => if cur = [] then [] else [String.mk cur.reverse]
  | c :: cs, cur =>
    if c.isWhitespace then
      if cur = [] then pySplitGo cs []
      else String.mk cur.reverse :: pySplitGo cs []
    else pySplitGo cs (c :: cur)

/-- Python `text.split()`: split on runs of whitespace, never yielding
empty fragments (leading/trailing whitespace produces nothing). -/
def pySplit (text : String) : List String :=
  pySplitGo text.data []

/-- The `tokenization` configuration consumed by `_calculate_tokens_simple`:
`min_word_length` and `polish_language_factor`.  The factor is a float in
the source; the shipped value `0.75` (`src/analysis/config.py`) is exactly
representable, and `int(n * 0.75)` equals `(n * 3) / 4` in natural-number
division for every word count a post can have, so the factor is carried as
an exact fraction `factorNum / factorDen`. -/
structure TokenConfig where
  min_word_length : Nat
  factorNum : Nat
  factorDen : Nat

/-- The shipped defaults: `polish_language_factor = 0.75`,
`min_word_length = 2` (`TOKENIZATION_CONFIG` in `src/analysis/config.py`,
identical to the hard-coded fallback dict in `TokenAnalyzer.__init__`). -/
def defaultTokenConfig : TokenConfig :=
  { min_word_length := 2, factorNum := 3, factorDen := 4 }

/-- `TokenAnalyzer._calculate_tokens_simple`: filter the whitespace-split
words by the configured minimum length, then scale by the language factor
and truncate (`int(len(filtered_words) * factor)`). -/
def calculateTokensSimple (cfg : TokenConfig) (text : String) : Nat :=
  let filtered := (pySplit text).filter (fun w => cfg.min_word_length ≤ w.length)
  (filtered.length * cfg.factorNum) / cfg.factorDen

/-- Result triple of `calculate_tokens` / `_calculate_tokens_worker_static`
(the `{'tokens': …, 'words': …, 'characters': …}` dict).  Fields are `Int`
because the Python values are unbounded ints; non-negativity is a claim to
prove, not a typing artifact. -/
structure TokenCounts where
  tokens : Int
  words : Int
  characters : Int
  deriving DecidableEq, Repr

/-- `TokenAnalyzer.calculate_tokens` (the sequential `Analyze` path).
`spacyCount` is the result of `_calculate_tokens_spacy`: `some n` when the
spaCy library and model are available and tokenization succeeds (the count
is produced by incrementing from zero, hence a `Nat`), `none` when spaCy
is unavailable or raises.  Note the word count is the plain
`len(text.split())` with no minimum-length filter. -/
def calculateTokens (spacyCount : String → Option Nat) (cfg : TokenConfig)
    (text : String) : TokenCounts :=
  if text = "" then
    { tokens := 0, words := 0, characters := 0 }
  else
    { tokens :=
        match spacyCount text with
        | some n => (n : Int)
        | none => (calculateTokensSimple cfg text : Int)
      words := ((pySplit text).length : Int)
      characters := (text.length : Int) }

/-- `_calculate_tokens_worker_static` (the worker-pool path): the word
count keeps only words of length ≥ 2, the token count is
`int(word_count * 0.75)`, both hard-coded; spaCy is never consulted. -/
def calculateTokensWorkerStatic (text : String) : TokenCounts :=
  if text = "" then
    { tokens := 0, words := 0, characters := 0 }
  else
    let wordCount := ((pySplit text).filter (fun w => 2 ≤ w.length)).length
    { tokens := ((wordCount * 3) / 4 : Nat)
      words := (wordCount : Int)
      characters := (text.length : Int) }

/-- `TokenAnalyzer.generate_analysis_hash`:
`hashlib.md5(text.encode('utf-8')).hexdigest()`.  The digest itself is an
external library call, passed in as `md5hex`. -/
def generateAnalysisHash (md5hex : String → String) (text : String) : String :=
  md5hex text

/-- `_generate_analysis_hash_static`: the worker-side hash, calling the very
same `hashlib.md5(...).hexdigest()` on the same UTF-8 encoding. -/
def generateAnalysisHashStatic (md5hex : String → String) (text : String) : String :=
  md5hex text

/-! ## The unified database (fixed schema of §6, the five forum tables)

Row structures carry exactly the columns the merger and analyzer read or
rewrite; remaining columns (titles, urls, timestamps) ride along unchanged
in the real code and are irrelevant to every claim.  Foreign-key columns
are `Option Int` because the code guards each rewrite with `is not None`. -/

/-- A `forums` row: primary key and `spider_name` (the forum name the
merger reads with `SELECT spider_name FROM forums LIMIT 1`). -/
structure ForumRow where
  id : Int
  spider_name : String
  deriving DecidableEq, Repr

/-- A `forum_sections` row: primary key and `forum_id FK → forums`. -/
structure SectionRow where
  id : Int
  forum_id : Option Int
  deriving DecidableEq, Repr

/-- A `forum_threads` row: primary key and `section_id FK → forum_sections`. -/
structure ThreadRow where
  id : Int
  section_id : Option Int
  deriving DecidableEq, Repr

/-- A `forum_users` row: primary key (the textual columns of `forum_users`
are handled by the column-list model `processUserRow` below, and do not
participate in ID remapping). -/
structure UserRow where
  id : Int
  deriving DecidableEq, Repr

/-- A `forum_posts` row: primary key, `thread_id FK → forum_threads`,
`user_id FK → forum_users`, and the analyzable `content` (nullable). -/
structure PostRow where
  id : Int
  thread_id : Option Int
  user_id : Option Int
  content : Option String
  deriving DecidableEq, Repr

/-- The five-table database (a source database or the merge target). -/
structure DB where
  forums : List ForumRow
  forum_sections : List SectionRow
  forum_threads : List ThreadRow
  forum_users : List UserRow
  forum_posts : List PostRow
  deriving DecidableEq, Repr

/-- The freshly created merge target: `create_target_database` deletes any
existing file and creates empty tables. -/
def emptyDB : DB := ⟨[], [], [], [], []⟩

def forumIds (d : DB) : List Int := d.forums.map ForumRow.id
def sectionIds (d : DB) : List Int := d.forum_sections.map SectionRow.id
def threadIds (d : DB) : List Int := d.forum_threads.map ThreadRow.id
def userIds (d : DB) : List Int := d.forum_users.map UserRow.id
def postIds (d : DB) : List Int := d.forum_posts.map PostRow.id

/-! ## The Database Merger (merge_all_databases.py)

`merge_all_databases(use_id_offset=True)` creates a fresh target, then for
each source in turn computes `offset_ids` — `None` for the very first
source, otherwise the target's current `MAX(id)` of every table
(`get_max_ids_from_target`) — and calls `merge_database(source, offset_ids)`
which adds each table's offset to its rows' primary keys and the referenced
parent's offset to each foreign-key column, inserting with
`INSERT OR IGNORE` (rows whose primary key already exists are skipped).
The created target carries only the PRIMARY KEY constraints (`PRAGMA
table_info` does not report UNIQUE constraints, so they are not recreated),
hence `INSERT OR IGNORE` can only skip on a duplicate `id`. -/

/-- The per-table ID offsets for one source
(`offset_ids[table] = current_max_ids[table]`). -/
structure OffsetMap where
  forums : Int
  forum_sections : Int
  forum_threads : Int
  forum_users : Int
  forum_posts : Int
  deriving DecidableEq, Repr

/-- `SELECT MAX(id) FROM t` followed by `or 0`: the SQL `MAX` of the id
column, or `0` when the table is empty (`MAX` returns NULL).  (`x or 0`
in Python maps `0` to `0`, so it only converts the NULL case.) -/
def sqlMaxId : List Int → Int
  | [] => 0
  | x :: xs => xs.foldl max x

/-- `DatabaseMerger.get_max_ids_from_target`, restricted to the five fixed
schema tables, followed by the loop `offset_ids[table] = current_max_ids[table]`
in `merge_all_databases`. -/
def targetOffsets (t : DB) : OffsetMap :=
  { forums := sqlMaxId (forumIds t)
    forum_sections := sqlMaxId (sectionIds t)
    forum_threads := sqlMaxId (threadIds t)
    forum_users := sqlMaxId (userIds t)
    forum_posts := sqlMaxId (postIds t) }

/-- Offset rewrite for a `forums` row: only its own id is shifted. -/
def shiftForum (o : OffsetMap) (r : ForumRow) : ForumRow :=
  { r with id := r.id + o.forums }

/-- Offset rewrite for a `forum_sections` row: own id plus the parent
`forums` offset on `forum_id` (skipped when NULL, per the `is not None`
guard). -/
def shiftSection (o : OffsetMap) (r : SectionRow) : SectionRow :=
  { id := r.id + o.forum_sections, forum_id := r.forum_id.map (· + o.forums) }

/-- Offset rewrite for a `forum_threads` row: own id plus the
`forum_sections` offset on `section_id`. -/
def shiftThread (o : OffsetMap) (r : ThreadRow) : ThreadRow :=
  { id := r.id + o.forum_threads, section_id := r.section_id.map (· + o.forum_sections) }

/-- Offset rewrite for a `forum_users` row: only its own id is shifted
(the source comment notes there is nothing else to shift). -/
def shiftUser (o : OffsetMap) (r : UserRow) : UserRow :=
  { id := r.id + o.forum_users }

/-- Offset rewrite for a `forum_posts` row: own id, the `forum_threads`
offset on `thread_id`, and the `forum_users` offset on `user_id`. -/
def shiftPost (o : OffsetMap) (r : PostRow) : PostRow :=
  { id := r.id + o.forum_posts
    thread_id := r.thread_id.map (· + o.forum_threads)
    user_id := r.user_id.map (· + o.forum_users)
    content := r.content }

/-- The `if offset_ids:` block of `merge_database`: with offsets, every
row's id and foreign keys are shifted; with `offset_ids=None` the rows pass
through unchanged. -/
def applyOffsets : Option OffsetMap → DB → DB
  | none, d => d
  | some o, d =>
    { forums := d.forums.map (shiftForum o)
      forum_sections := d.forum_sections.map (shiftSection o)
      forum_threads := d.forum_threads.map (shiftThread o)
      forum_users := d.forum_users.map (shiftUser o)
      forum_posts := d.forum_posts.map (shiftPost o) }

/-- `INSERT OR IGNORE`: skip the row if a row with the same primary key is
already present, otherwise append it. -/
def insertOrIgnore {α : Type} (key : α → Int) (tbl : List α) (r : α) : List α :=
  if tbl.any (fun x => key x == key r) then tbl else tbl ++ [r]

/-- Batched `executemany` of `INSERT OR IGNORE` rows (batching in slices of
1000 does not change the resulting table: the inserts run in order). -/
def insertRows {α : Type} (key : α → Int) (tbl : List α) (rows : List α) : List α :=
  rows.foldl (insertOrIgnore key) tbl

/-- `DatabaseMerger.merge_database` restricted to the ID/foreign-key
remapping and insertion of the five schema tables.  (The textual
`forum_users` processing — provenance column and username tagging — does
not touch any id column and is modelled separately by `processUserRow`.) -/
def mergeDatabase (t : DB) (source : DB) (offset_ids : Option OffsetMap) : DB :=
  let s := applyOffsets offset_ids source
  { forums := insertRows ForumRow.id t.forums s.forums
    forum_sections := insertRows SectionRow.id t.forum_sections s.forum_sections
    forum_threads := insertRows ThreadRow.id t.forum_threads s.forum_threads
    forum_users := insertRows UserRow.id t.forum_users s.forum_users
    forum_posts := insertRows PostRow.id t.forum_posts s.forum_posts }

/-- The merge loop of `merge_all_databases` for the sources after the
first: `use_id_offset and i > 0` holds, so each source is merged with
offsets read from the target's current MAX(id)s. -/
def mergeAllAux (t : DB) : List DB → DB
  | [] => t
  | s :: rest => mergeAllAux (mergeDatabase t s (some (targetOffsets t))) rest

/-- `DatabaseMerger.merge_all_databases(use_id_offset=True)`: fresh target,
first source merged with `offset_ids=None` (the loop guard is
`use_id_offset and i > 0`), every later source with offsets from the
target's current MAX(id)s.  With no sources the code reports an error and
merges nothing (the target state is the empty database). -/
def mergeAllDatabases : List DB → DB
  | [] => emptyDB
  | s :: rest => mergeAllAux (mergeDatabase emptyDB s none) rest

/-- Plain per-table concatenation of two databases. -/
def dbAppend (t s : DB) : DB :=
  { forums := t.forums ++ s.forums
    forum_sections := t.forum_sections ++ s.forum_sections
    forum_threads := t.forum_threads ++ s.forum_threads
    forum_users := t.forum_users ++ s.forum_users
    forum_posts := t.forum_posts ++ s.forum_posts }

/-- Specification-side description of the merge (claim C6's wording): before
each source is merged, the per-table offsets are the **target's** current
MAX(id) per table — zero for the first source, whose target is empty — and
the source's rows are appended with the table's offset added to their own
id and the referenced parent table's offset added to each foreign key. -/
def specMergeAll (t : DB) : List DB → DB
  | [] => t
  | s :: rest => specMergeAll (dbAppend t (applyOffsets (some (targetOffsets t)) s)) rest

/-- Resolvability of one (nullable) foreign-key value against the list of
parent primary keys: NULL resolves vacuously. -/
def fkOk (parents : List Int) : Option Int → Prop
  | none => True
  | some v => v ∈ parents

instance instDecidableFkOk (parents : List Int) :
    (v : Option Int) → Decidable (fkOk parents v)
  | none => .isTrue trivial
  | some v => inferInstanceAs (Decidable (v ∈ parents))

/-- Key-column well-formedness of one table: ids are pairwise distinct and
positive (SQLite AUTOINCREMENT keys start at 1, §3 of the spec). -/
def tableWF (ids : List Int) : Prop :=
  ids.Nodup ∧ ∀ i ∈ ids, 1 ≤ i

/-- Primary keys are globally unique within each table. -/
def uniqueKeys (d : DB) : Prop :=
  (forumIds d).Nodup ∧ (sectionIds d).Nodup ∧ (threadIds d).Nodup
    ∧ (userIds d).Nodup ∧ (postIds d).Nodup

/-- Every foreign-key value of the four fixed edges resolves to an existing
parent row. -/
def fkIntegrity (d : DB) : Prop :=
  (∀ r ∈ d.forum_sections, fkOk (forumIds d) r.forum_id)
  ∧ (∀ r ∈ d.forum_threads, fkOk (sectionIds d) r.section_id)
  ∧ (∀ r ∈ d.forum_posts, fkOk (threadIds d) r.thread_id)
  ∧ (∀ r ∈ d.forum_posts, fkOk (userIds d) r.user_id)

/-- A structurally well-formed database in the fixed schema: per-table key
well-formedness plus referential integrity.  Sources (produced by the
scraper with locally auto-incrementing ids starting at 1, §3) satisfy it;
the merge preserves it. -/
def dbWF (d : DB) : Prop :=
  tableWF (forumIds d) ∧ tableWF (sectionIds d) ∧ tableWF (threadIds d)
    ∧ tableWF (userIds d) ∧ tableWF (postIds d) ∧ fkIntegrity d

instance instDecTableWF (ids : List Int) : Decidable (tableWF ids) :=
  inferInstanceAs (Decidable (ids.Nodup ∧ ∀ i ∈ ids, 1 ≤ i))

instance instDecUniqueKeys (d : DB) : Decidable (uniqueKeys d) :=
  inferInstanceAs (Decidable ((forumIds d).Nodup ∧ (sectionIds d).Nodup
    ∧ (threadIds d).Nodup ∧ (userIds d).Nodup ∧ (postIds d).Nodup))

instance instDecFkIntegrity (d : DB) : Decidable (fkIntegrity d) :=
  inferInstanceAs (Decidable ((∀ r ∈ d.forum_sections, fkOk (forumIds d) r.forum_id)
    ∧ (∀ r ∈ d.forum_threads, fkOk (sectionIds d) r.section_id)
    ∧ (∀ r ∈ d.forum_posts, fkOk (threadIds d) r.thread_id)
    ∧ (∀ r ∈ d.forum_posts, fkOk (userIds d) r.user_id)))

instance instDecDbWF (d : DB) : Decidable (dbWF d) :=
  inferInstanceAs (Decidable (tableWF (forumIds d) ∧ tableWF (sectionIds d)
    ∧ tableWF (threadIds d) ∧ tableWF (userIds d) ∧ tableWF (postIds d)
    ∧ fkIntegrity d))

/-! ## forum_users row processing (merge_database lines 356-385)

The real code works on raw column/value lists from `PRAGMA table_info` and
`SELECT *`; this model keeps that shape: a row is a `List SqlValue` and the
column list a `List String`. -/

/-- A raw SQLite value as the Python `sqlite3` driver delivers it (the
claims only involve NULL, integer and text values). -/
inductive SqlValue where
  | null
  | int (n : Int)
  | text (s : String)
  deriving DecidableEq, Repr

/-- Python truthiness of a fetched value (`if row_list[username_idx]:`):
`None`, `0` and `""` are falsy. -/
def SqlValue.truthy : SqlValue → Bool
  | .null => false
  | .int n => n != 0
  | .text s => s != ""

/-- Python f-string rendering of a fetched value
(`f"{forum_name}_{row_list[username_idx]}"`). -/
def SqlValue.pyStr : SqlValue → String
  | .null => "None"
  | .int n => toString n
  | .text s => s

/-- The column list after `forum_users` processing: `forum_id` is appended
when absent (both in `merge_database` and, on the DDL side, in
`create_target_database`). -/
def processedUserColumns (column_names : List String) : List String :=
  if column_names.contains "forum_id" then column_names
  else column_names ++ ["forum_id"]

/-- One `forum_users` row as `merge_database` rewrites it before insertion:
if the source lacks a `forum_id` column, the source's forum name is
appended as its value; then, when a `username` column exists and the row's
username value is truthy, that value is replaced by
`f"{forum_name}_{value}"`.  Indexing uses the (possibly extended) column
list, exactly as the code mutates `column_names` before the row loop. -/
def processUserRow (column_names : List String) (forum_name : String)
    (row : List SqlValue) : List SqlValue :=
  let has_forum_id := column_names.contains "forum_id"
  let cols := processedUserColumns column_names
  let row1 := if has_forum_id then row else row ++ [SqlValue.text forum_name]
  if cols.contains "username" then
    let idx := cols.indexOf "username"
    let v := row1.getD idx SqlValue.null
    if v.truthy then row1.set idx (SqlValue.text (forum_name ++ "_" ++ v.pyStr))
    else row1
  else row1

/-- The whole `forum_users` rewrite pass over the fetched rows. -/
def processUsersTable (column_names : List String) (forum_name : String)
    (rows : List (List SqlValue)) : List (List SqlValue) :=
  rows.map (processUserRow column_names forum_name)

/-! ## Analyzer state and persistence (token_analyzer.py lines 128-536)

`create_analysis_database` creates `token_analysis` with `UNIQUE(post_id)`
and `analysis_stats` with **no** uniqueness constraint beyond the
autoincrement primary key (lines 149-176).  A `token_analysis` row is
modelled without its surrogate autoincrement id and `created_at` default:
`INSERT OR REPLACE` can only conflict on `UNIQUE(post_id)` because the
surrogate key is freshly assigned on every insert. -/

/-- A `TokenAnalysisResult` dataclass / persisted `token_analysis` row.
`processing_time_ms` is a float in the source; its value is opaque to every
persistence operation, so it is carried as an integer number of
microseconds-scale ticks supplied by the clock parameter. -/
structure TokenAnalysisResult where
  post_id : Int
  token_count : Int
  word_count : Int
  character_count : Int
  analysis_hash : String
  analyzed_at : String
  processing_time_ms : Int
  deriving DecidableEq, Repr

/-- A persisted `analysis_stats` row (without surrogate id /
`created_at`). -/
structure AnalysisStatsRow where
  analysis_date : String
  posts_analyzed : Int
  total_tokens : Int
  total_words : Int
  total_characters : Int
  processing_time_seconds : Int
  deriving DecidableEq, Repr

/-- The analysis database: the two result tables created by
`create_analysis_database`. -/
structure AnalysisDB where
  token_analysis : List TokenAnalysisResult
  analysis_stats : List AnalysisStatsRow
  deriving DecidableEq, Repr

/-- `TokenAnalyzer.save_analysis_result`: `INSERT OR REPLACE INTO
token_analysis … VALUES …` under `UNIQUE(post_id)` — any existing rows
with the same `post_id` are deleted and the new row inserted. -/
def saveAnalysisResult (tbl : List TokenAnalysisResult)
    (r : TokenAnalysisResult) : List TokenAnalysisResult :=
  tbl.filter (fun x => x.post_id != r.post_id) ++ [r]

/-- `TokenAnalyzer.update_analysis_stats`: computes the batch totals and
runs `INSERT OR REPLACE INTO analysis_stats …`.  The DDL of
`analysis_stats` (lines 165-176) declares **no** UNIQUE constraint on
`analysis_date`, and the autoincrement primary key is fresh on every
insert, so the `OR REPLACE` clause never fires and the statement appends a
row unconditionally.  An empty batch returns early. -/
def updateAnalysisStats (today : String) (adb : AnalysisDB)
    (batch : List TokenAnalysisResult) : AnalysisDB :=
  if batch.isEmpty then adb
  else
    { adb with
        analysis_stats := adb.analysis_stats ++
          [{ analysis_date := today
             posts_analyzed := (batch.length : Int)
             total_tokens := (batch.map TokenAnalysisResult.token_count).sum
             total_words := (batch.map TokenAnalysisResult.word_count).sum
             total_characters := (batch.map TokenAnalysisResult.character_count).sum
             processing_time_seconds :=
               (batch.map TokenAnalysisResult.processing_time_ms).sum / 1000 }] }

/-- `hasAnalysisRow adb pid` is the `LEFT JOIN token_analysis ta ON p.id =
ta.post_id … ta.post_id IS NULL` test: does a `token_analysis` row for
this post exist? -/
def hasAnalysisRow (adb : AnalysisDB) (pid : Int) : Bool :=
  adb.token_analysis.any (fun ta => ta.post_id == pid)

/-- Auto-detection of forums (`SELECT spider_name FROM forums`), used when
`forums_to_analyze` is unset or empty. -/
def detectedForums (db : DB) : List String :=
  db.forums.map ForumRow.spider_name

/-- The forum filter actually applied by `get_posts_to_analyze`: the
explicit list when non-empty, otherwise every spider name present in the
unified database's `forums` table. -/
def effectiveForums (db : DB) (forums_to_analyze : List String) : List String :=
  if forums_to_analyze.isEmpty then detectedForums db else forums_to_analyze

/-- The FROM/JOIN/WHERE part of the `get_posts_to_analyze` query: posts
joined through threads, sections and forums (an inner join on each
foreign key), kept when the forum's `spider_name` is in the filter and no
`token_analysis` row exists for the post.  There is no condition on
`p.content` in the SQL. -/
def scanCandidates (db : DB) (adb : AnalysisDB) (forums : List String) :
    List PostRow :=
  db.forum_posts.flatMap fun p =>
    (db.forum_threads.filter fun t => p.thread_id == some t.id).flatMap fun t =>
      (db.forum_sections.filter fun s => t.section_id == some s.id).flatMap fun s =>
        (db.forums.filter fun f => s.forum_id == some f.id).flatMap fun f =>
          if forums.contains f.spider_name && !(hasAnalysisRow adb p.id)
          then [p] else []

/-- The ordering relation of `ORDER BY p.id`. -/
def postLe (a b : PostRow) : Prop := a.id ≤ b.id

instance instDecPostLe : DecidableRel postLe :=
  fun a b => inferInstanceAs (Decidable (a.id ≤ b.id))

instance instTotalPostLe : IsTotal PostRow postLe :=
  ⟨fun a b => Int.le_total a.id b.id⟩

instance instTransPostLe : IsTrans PostRow postLe :=
  ⟨fun _ _ _ h1 h2 => le_trans h1 h2⟩

/-- `TokenAnalyzer.get_posts_to_analyze`: the scan query — join, filter,
`ORDER BY p.id`, `LIMIT batch_size` — projected to `(p.id, p.content)`
pairs.  (SQLite leaves the relative order of equal sort keys open; the
model fixes a stable insertion sort, and every claim proved about the
result is insensitive to that choice.) -/
def getPostsToAnalyze (db : DB) (adb : AnalysisDB)
    (forums_to_analyze : List String) (batch_size : Nat) :
    List (Int × Option String) :=
  let fs := effectiveForums db forums_to_analyze
  ((((scanCandidates db adb fs).insertionSort postLe).take batch_size).map
    fun p => (p.id, p.content))

/-- The analyzer's external environment: the spaCy probe result, the token
configuration, the MD5 hex digest, the wall clock readings (`analyzed_at`
timestamp, per-record duration, today's date) and the per-record commit
outcome of the underlying SQLite transaction (`save_analysis_result`
returns `False` exactly when its commit raises, leaving that record's
transaction without effect). -/
structure AnalyzerEnv where
  spacyCount : String → Option Nat
  cfg : TokenConfig
  md5hex : String → String
  now : String
  ptime : Int
  today : String
  commitOk : Int → Bool

/-- `TokenAnalyzer.analyze_single_post`: compute the counts, the content
hash, the timestamp and the duration for one post. -/
def analyzeSinglePost (env : AnalyzerEnv) (post_id : Int) (content : String) :
    TokenAnalysisResult :=
  let c := calculateTokens env.spacyCount env.cfg content
  { post_id := post_id
    token_count := c.tokens
    word_count := c.words
    character_count := c.characters
    analysis_hash := generateAnalysisHash env.md5hex content
    analyzed_at := env.now
    processing_time_ms := env.ptime }

/-- The results computed by the sequential loop of
`_process_batch_sequential`: posts with NULL content are skipped
(`if content is None: continue`), every other post is analyzed. -/
def batchResults (env : AnalyzerEnv) (posts : List (Int × Option String)) :
    List TokenAnalysisResult :=
  posts.filterMap fun pc => pc.2.map fun c => analyzeSinglePost env pc.1 c

/-- The per-record save loop shared by both batch paths: each
`save_analysis_result` call opens its own connection and commits on its
own; a failed commit (`commitOk` false) leaves the table unchanged for that
record only, is counted as an error, and the loop continues. -/
def runSaves (commitOk : Int → Bool) (tbl : List TokenAnalysisResult)
    (results : List TokenAnalysisResult) : List TokenAnalysisResult :=
  results.foldl
    (fun acc r => if commitOk r.post_id then saveAnalysisResult acc r else acc) tbl

/-- `TokenAnalyzer._process_batch_sequential`: analyze each post in order,
save each result in its own transaction, then roll the full result list
(including results whose save failed) into `update_analysis_stats`. -/
def processBatchSequential (env : AnalyzerEnv) (adb : AnalysisDB)
    (posts : List (Int × Option String)) : AnalysisDB :=
  let results := batchResults env posts
  updateAnalysisStats env.today
    { adb with token_analysis := runSaves env.commitOk adb.token_analysis results }
    results

/-- The chunking `[posts[i:i+chunk_size] for i in range(0, len(posts),
chunk_size)]`.  A zero chunk size would make the Python `range` raise; the
configuration is always positive (default 50), and the model returns the
whole list as one chunk in that unreachable case. -/
def chunksOf {α : Type} : Nat → List α → List (List α)
  | _, [] => []
  | 0, l => [l]
  | n + 1, x :: xs => (x :: xs).take (n + 1) :: chunksOf (n + 1) (xs.drop n)
termination_by n l => l.length
decreasing_by
  simp only [List.length_cons, List.length_drop]
  omega

/-- `_process_chunk_worker_static`: one worker process analyzes its chunk
with the worker-local tokenizer and hash, skipping NULL content. -/
def processChunkWorkerStatic (env : AnalyzerEnv)
    (chunk : List (Int × Option String)) : List TokenAnalysisResult :=
  chunk.filterMap fun pc => pc.2.map fun c =>
    let t := calculateTokensWorkerStatic c
    { post_id := pc.1
      token_count := t.tokens
      word_count := t.words
      character_count := t.characters
      analysis_hash := generateAnalysisHashStatic env.md5hex c
      analyzed_at := env.now
      processing_time_ms := env.ptime }

/-- `TokenAnalyzer._process_batch_multiprocessing`: chunk the batch, run
the static worker on each chunk, collect the results, then save each one
in its own transaction and update the stats — exactly the sequential tail
applied to the worker results.  (`as_completed` yields the chunk futures in
a nondeterministic completion order; the model fixes submission order, and
every claim proved about the outcome is order-insensitive.) -/
def processBatchMultiprocessing (env : AnalyzerEnv) (chunk_size : Nat)
    (adb : AnalysisDB) (posts : List (Int × Option String)) : AnalysisDB :=
  let results := ((chunksOf chunk_size posts).map (processChunkWorkerStatic env)).flatten
  updateAnalysisStats env.today
    { adb with token_analysis := runSaves env.commitOk adb.token_analysis results }
    results

/-- The `multiprocessing` configuration consumed by `process_batch`. -/
structure MpConfig where
  use_multiprocessing : Bool
  chunk_size : Nat

/-- `TokenAnalyzer.process_batch`: scan for pending posts; an empty scan
does nothing; a batch of more than 10 posts with multiprocessing enabled
goes to the worker pool, otherwise the sequential path runs. -/
def processBatch (env : AnalyzerEnv) (mp : MpConfig) (db : DB)
    (adb : AnalysisDB) (forums_to_analyze : List String) (batch_size : Nat) :
    AnalysisDB :=
  let posts := getPostsToAnalyze db adb forums_to_analyze batch_size
  if posts.isEmpty then adb
  else if mp.use_multiprocessing && decide (10 < posts.length) then
    processBatchMultiprocessing env mp.chunk_size adb posts
  else
    processBatchSequential env adb posts

end ForumsScraper

namespace ForumsScraper

/-! ## Claims C7 and C5: the two tokenization paths -/

/-- C7: for every text input, on both the sequential path
(`calculate_tokens`, any spaCy availability, any configuration) and the
worker path (`_calculate_tokens_worker_static`), the character count equals
the length of the raw text and the token count is non-negative; empty
content yields `{tokens := 0, words := 0, characters := 0}` on both paths. -/
theorem tokens_charcount_nonneg (spacyCount : String → Option Nat)
    (cfg : TokenConfig) (text : String) :
    (calculateTokens spacyCount cfg text).characters = (text.length : Int)
    ∧ 0 ≤ (calculateTokens spacyCount cfg text).tokens
    ∧ (calculateTokensWorkerStatic text).characters = (text.length : Int)
    ∧ 0 ≤ (calculateTokensWorkerStatic text).tokens
    ∧ calculateTokens spacyCount cfg "" = ⟨0, 0, 0⟩
    ∧ calculateTokensWorkerStatic "" = ⟨0, 0, 0⟩ := by
  unfold calculateTokens calculateTokensWorkerStatic
  refine ⟨?_, ?_, ?_, ?_, rfl, rfl⟩
  · by_cases h : text = "" <;> simp [h]
  · by_cases h : text = ""
    · simp [h]
    · simp only [h, if_false]
      cases spacyCount text
      · exact Int.natCast_nonneg _
      · exact Int.natCast_nonneg _
  · by_cases h : text = "" <;> simp [h]
  · by_cases h : text = ""
    · simp [h]
    · simp only [h, if_false]
      exact Int.natCast_nonneg _

/-- C5 counterexample: on the input text `"a b"` (with the shipped default
configuration and the primary tokenizer unavailable, so that both paths use
the heuristic), the sequential path reports a word count of 2 — `str.split()`
with no filter — while the worker path reports 0, because it applies the
hard-coded minimum-length-2 filter to the word count itself.  The two paths
therefore do not produce the same `word_count`, refuting the claim. -/
theorem worker_vs_sequential_wordcount_differ :
    (calculateTokens (fun _ => none) defaultTokenConfig "a b").words = 2
    ∧ (calculateTokensWorkerStatic "a b").words = 0 := by
  constructor <;> decide

/-! ## Merger lemmas -/

theorem le_foldl_max (l : List Int) (b : Int) : b ≤ l.foldl max b := by
  induction l generalizing b with
  | nil => exact le_refl b
  | cons x xs ih => exact le_trans (le_max_left b x) (ih (max b x))

theorem mem_le_foldl_max {x : Int} : ∀ (l : List Int) (b : Int), x ∈ l → x ≤ l.foldl max b := by
  intro l
  induction l with
  | nil => intro b hx; cases hx
  | cons y ys ih =>
    intro b hx
    rcases List.mem_cons.1 hx with rfl | h
    · exact le_trans (le_max_right b x) (le_foldl_max ys (max b x))
    · exact ih (max b y) h

/-- Every id in a table is bounded by the table's `MAX(id)`. -/
theorem le_sqlMaxId {x : Int} {l : List Int} (hx : x ∈ l) : x ≤ sqlMaxId l := by
  cases l with
  | nil => cases hx
  | cons y ys =>
    rcases List.mem_cons.1 hx with rfl | h
    · exact le_foldl_max ys x
    · exact mem_le_foldl_max ys y h

/-- A table of positive ids (or an empty table) has a non-negative
`MAX(id)`. -/
theorem sqlMaxId_nonneg {l : List Int} (h : ∀ x ∈ l, 1 ≤ x) : 0 ≤ sqlMaxId l := by
  cases l with
  | nil => exact le_refl 0
  | cons y ys =>
    have h1 : 1 ≤ y := h y (List.mem_cons_self y ys)
    exact le_trans (le_trans zero_le_one h1) (le_foldl_max ys y)

/-- When the inserted rows have pairwise distinct keys, none of which is
already present, `INSERT OR IGNORE` never skips: the table is the old rows
followed by the new ones. -/
theorem insertRows_of_fresh {α : Type} (key : α → Int) :
    ∀ (rows tbl : List α),
      (rows.map key).Nodup →
      (∀ r ∈ rows, ∀ x ∈ tbl, key x ≠ key r) →
      insertRows key tbl rows = tbl ++ rows := by
  intro rows
  induction rows with
  | nil => intro tbl _ _; simp [insertRows]
  | cons r rs ih =>
    intro tbl hnd hfresh
    obtain ⟨hnotin, hnd'⟩ :
        (∀ x ∈ rs, ¬key x = key r) ∧ (rs.map key).Nodup := by simpa using hnd
    have hany : (tbl.any fun x => key x == key r) = false := by
      simp only [List.any_eq_false, beq_iff_eq]
      exact fun x hx => hfresh r (List.mem_cons_self r rs) x hx
    have step : insertOrIgnore key tbl r = tbl ++ [r] := by
      simp [insertOrIgnore, hany]
    have hfresh' : ∀ r' ∈ rs, ∀ x ∈ tbl ++ [r], key x ≠ key r' := by
      intro r' hr' x hx
      rcases List.mem_append.1 hx with hx | hx
      · exact hfresh r' (List.mem_cons_of_mem r hr') x hx
      · rcases List.mem_singleton.1 hx with rfl
        exact fun hcontra => hnotin r' hr' hcontra.symm
    calc insertRows key tbl (r :: rs)
        = insertRows key (insertOrIgnore key tbl r) rs := rfl
      _ = insertRows key (tbl ++ [r]) rs := by rw [step]
      _ = (tbl ++ [r]) ++ rs := ih (tbl ++ [r]) hnd' hfresh'
      _ = tbl ++ (r :: rs) := by simp

/-- Shifting a table of distinct ids by a fixed offset keeps them
distinct. -/
theorem nodup_map_add {l : List Int} (off : Int) (h : l.Nodup) :
    (l.map (· + off)).Nodup :=
  h.map (fun a b hab => by omega)

/-- Merging one table whose keys are affinely shifted beyond the target's
current maximum inserts every row: no `INSERT OR IGNORE` skip fires. -/
theorem insertRows_shift_eq {α : Type} (key : α → Int) (shift : α → α) (off : Int)
    (hshift : ∀ r, key (shift r) = key r + off)
    (tbl rows : List α)
    (hnd : (rows.map key).Nodup)
    (hpos : ∀ r ∈ rows, 1 ≤ key r)
    (hle : ∀ x ∈ tbl, key x ≤ off) :
    insertRows key tbl (rows.map shift) = tbl ++ rows.map shift := by
  apply insertRows_of_fresh
  · have hmm : (rows.map shift).map key = (rows.map key).map (· + off) := by
      simp only [List.map_map]
      exact List.map_congr_left (fun r _ => hshift r)
    rw [hmm]
    exact nodup_map_add off hnd
  · intro r hr x hx
    rcases List.mem_map.1 hr with ⟨r₀, hr₀, rfl⟩
    have h1 := hle x hx
    have h2 := hpos r₀ hr₀
    have h3 := hshift r₀
    omega

theorem forumIds_append (t s : DB) :
    forumIds (dbAppend t s) = forumIds t ++ forumIds s := by
  simp [forumIds, dbAppend]

theorem sectionIds_append (t s : DB) :
    sectionIds (dbAppend t s) = sectionIds t ++ sectionIds s := by
  simp [sectionIds, dbAppend]

theorem threadIds_append (t s : DB) :
    threadIds (dbAppend t s) = threadIds t ++ threadIds s := by
  simp [threadIds, dbAppend]

theorem userIds_append (t s : DB) :
    userIds (dbAppend t s) = userIds t ++ userIds s := by
  simp [userIds, dbAppend]

theorem postIds_append (t s : DB) :
    postIds (dbAppend t s) = postIds t ++ postIds s := by
  simp [postIds, dbAppend]

theorem forumIds_shift (o : OffsetMap) (s : DB) :
    forumIds (applyOffsets (some o) s) = (forumIds s).map (· + o.forums) := by
  simp [forumIds, applyOffsets, shiftForum, List.map_map, Function.comp]

theorem sectionIds_shift (o : OffsetMap) (s : DB) :
    sectionIds (applyOffsets (some o) s) = (sectionIds s).map (· + o.forum_sections) := by
  simp [sectionIds, applyOffsets, shiftSection, List.map_map, Function.comp]

theorem threadIds_shift (o : OffsetMap) (s : DB) :
    threadIds (applyOffsets (some o) s) = (threadIds s).map (· + o.forum_threads) := by
  simp [threadIds, applyOffsets, shiftThread, List.map_map, Function.comp]

theorem userIds_shift (o : OffsetMap) (s : DB) :
    userIds (applyOffsets (some o) s) = (userIds s).map (· + o.forum_users) := by
  simp [userIds, applyOffsets, shiftUser, List.map_map, Function.comp]

theorem postIds_shift (o : OffsetMap) (s : DB) :
    postIds (applyOffsets (some o) s) = (postIds s).map (· + o.forum_posts) := by
  simp [postIds, applyOffsets, shiftPost, List.map_map, Function.comp]

/-- Weakening of foreign-key resolvability along a superset of parents. -/
theorem fkOk_mono {ps qs : List Int} (hsub : ∀ x ∈ ps, x ∈ qs) :
    ∀ {v : Option Int}, fkOk ps v → fkOk qs v
  | none, _ => trivial
  | some v, h => hsub v h

/-- Shifting a resolvable foreign key by the parent table's offset keeps it
resolvable against the shifted parent keys. -/
theorem fkOk_shift {ps : List Int} (off : Int) :
    ∀ {v : Option Int}, fkOk ps v → fkOk (ps.map (· + off)) (v.map (· + off))
  | none, _ => trivial
  | some v, h => List.mem_map_of_mem _ h

/-- The keys of a well-formed table appended to a shifted well-formed
table stay pairwise distinct and positive. -/
theorem tableWF_append_shift {tids sids : List Int}
    (ht : tableWF tids) (hs : tableWF sids) :
    tableWF (tids ++ sids.map (· + sqlMaxId tids)) := by
  obtain ⟨h1, h1p⟩ := ht
  obtain ⟨h2, h2p⟩ := hs
  constructor
  · rw [List.nodup_append]
    refine ⟨h1, nodup_map_add _ h2, ?_⟩
    intro a ha hb
    rcases List.mem_map.1 hb with ⟨v, hv, hveq⟩
    have hle : a ≤ sqlMaxId tids := le_sqlMaxId ha
    have hge : 1 ≤ v := h2p v hv
    omega
  · intro i hi
    rcases List.mem_append.1 hi with hi | hi
    · exact h1p i hi
    · rcases List.mem_map.1 hi with ⟨v, hv, rfl⟩
      have := h2p v hv
      have := sqlMaxId_nonneg h1p
      omega

/-- One merge step with offsets taken from the target's current MAX(id)s
is a pure append of the shifted source: no row is skipped. -/
theorem mergeStep_append (t s : DB) (ht : dbWF t) (hs : dbWF s) :
    mergeDatabase t s (some (targetOffsets t)) =
      dbAppend t (applyOffsets (some (targetOffsets t)) s) := by
  obtain ⟨⟨htf, htf1⟩, ⟨hts, hts1⟩, ⟨htt, htt1⟩, ⟨htu, htu1⟩, ⟨htp, htp1⟩, _⟩ := ht
  obtain ⟨⟨hsf, hsf1⟩, ⟨hss, hss1⟩, ⟨hst, hst1⟩, ⟨hsu, hsu1⟩, ⟨hsp, hsp1⟩, _⟩ := hs
  simp only [mergeDatabase, dbAppend, applyOffsets, DB.mk.injEq]
  refine ⟨?_, ?_, ?_, ?_, ?_⟩
  · exact insertRows_shift_eq ForumRow.id (shiftForum (targetOffsets t)) _
      (fun r => rfl) t.forums s.forums hsf
      (fun r hr => hsf1 r.id (List.mem_map_of_mem _ hr))
      (fun x hx => le_sqlMaxId (List.mem_map_of_mem _ hx))
  · exact insertRows_shift_eq SectionRow.id (shiftSection (targetOffsets t)) _
      (fun r => rfl) t.forum_sections s.forum_sections hss
      (fun r hr => hss1 r.id (List.mem_map_of_mem _ hr))
      (fun x hx => le_sqlMaxId (List.mem_map_of_mem _ hx))
  · exact insertRows_shift_eq ThreadRow.id (shiftThread (targetOffsets t)) _
      (fun r => rfl) t.forum_threads s.forum_threads hst
      (fun r hr => hst1 r.id (List.mem_map_of_mem _ hr))
      (fun x hx => le_sqlMaxId (List.mem_map_of_mem _ hx))
  · exact insertRows_shift_eq UserRow.id (shiftUser (targetOffsets t)) _
      (fun r => rfl) t.forum_users s.forum_users hsu
      (fun r hr => hsu1 r.id (List.mem_map_of_mem _ hr))
      (fun x hx => le_sqlMaxId (List.mem_map_of_mem _ hx))
  · exact insertRows_shift_eq PostRow.id (shiftPost (targetOffsets t)) _
      (fun r => rfl) t.forum_posts s.forum_posts hsp
      (fun r hr => hsp1 r.id (List.mem_map_of_mem _ hr))
      (fun x hx => le_sqlMaxId (List.mem_map_of_mem _ hx))

/-- Appending a source shifted by the target's MAX(id)s preserves database
well-formedness. -/
theorem dbWF_append_shift (t s : DB) (ht : dbWF t) (hs : dbWF s) :
    dbWF (dbAppend t (applyOffsets (some (targetOffsets t)) s)) := by
  obtain ⟨htf, hts, htt, htu, htp, htfkS, htfkT, htfkP, htfkU⟩ := ht
  obtain ⟨hsf, hss, hst, hsu, hsp, hsfkS, hsfkT, hsfkP, hsfkU⟩ := hs
  set o := targetOffsets t with ho
  refine ⟨?_, ?_, ?_, ?_, ?_, ?_, ?_, ?_, ?_⟩
  · rw [forumIds_append, forumIds_shift]
    exact tableWF_append_shift htf hsf
  · rw [sectionIds_append, sectionIds_shift]
    exact tableWF_append_shift hts hss
  · rw [threadIds_append, threadIds_shift]
    exact tableWF_append_shift htt hst
  · rw [userIds_append, userIds_shift]
    exact tableWF_append_shift htu hsu
  · rw [postIds_append, postIds_shift]
    exact tableWF_append_shift htp hsp
  · intro r hr
    rw [forumIds_append, forumIds_shift]
    rcases (by simpa [dbAppend, applyOffsets] using hr :
        r ∈ t.forum_sections ∨ ∃ a ∈ s.forum_sections, shiftSection o a = r) with
      hr | ⟨r₀, hr₀, rfl⟩
    · exact fkOk_mono (fun x hx => List.mem_append_left _ hx) (htfkS r hr)
    · exact fkOk_mono (fun x hx => List.mem_append_right _ hx)
        (fkOk_shift o.forums (hsfkS r₀ hr₀))
  · intro r hr
    rw [sectionIds_append, sectionIds_shift]
    rcases (by simpa [dbAppend, applyOffsets] using hr :
        r ∈ t.forum_threads ∨ ∃ a ∈ s.forum_threads, shiftThread o a = r) with
      hr | ⟨r₀, hr₀, rfl⟩
    · exact fkOk_mono (fun x hx => List.mem_append_left _ hx) (htfkT r hr)
    · exact fkOk_mono (fun x hx => List.mem_append_right _ hx)
        (fkOk_shift o.forum_sections (hsfkT r₀ hr₀))
  · intro r hr
    rw [threadIds_append, threadIds_shift]
    rcases (by simpa [dbAppend, applyOffsets] using hr :
        r ∈ t.forum_posts ∨ ∃ a ∈ s.forum_posts, shiftPost o a = r) with
      hr | ⟨r₀, hr₀, rfl⟩
    · exact fkOk_mono (fun x hx => List.mem_append_left _ hx) (htfkP r hr)
    · exact fkOk_mono (fun x hx => List.mem_append_right _ hx)
        (fkOk_shift o.forum_threads (hsfkP r₀ hr₀))
  · intro r hr
    rw [userIds_append, userIds_shift]
    rcases (by simpa [dbAppend, applyOffsets] using hr :
        r ∈ t.forum_posts ∨ ∃ a ∈ s.forum_posts, shiftPost o a = r) with
      hr | ⟨r₀, hr₀, rfl⟩
    · exact fkOk_mono (fun x hx => List.mem_append_left _ hx) (htfkU r hr)
    · exact fkOk_mono (fun x hx => List.mem_append_right _ hx)
        (fkOk_shift o.forum_users (hsfkU r₀ hr₀))

/-- The merge loop preserves well-formedness of the target. -/
theorem mergeAllAux_wf :
    ∀ (srcs : List DB) (t : DB), dbWF t → (∀ s ∈ srcs, dbWF s) →
      dbWF (mergeAllAux t srcs) := by
  intro srcs
  induction srcs with
  | nil => intro t ht _; exact ht
  | cons s rest ih =>
    intro t ht hall
    have hs := hall s (List.mem_cons_self s rest)
    show dbWF (mergeAllAux (mergeDatabase t s (some (targetOffsets t))) rest)
    rw [mergeStep_append t s ht hs]
    exact ih _ (dbWF_append_shift t s ht hs)
      (fun x hx => hall x (List.mem_cons_of_mem s hx))

/-- On well-formed inputs, the merge loop coincides with the
append-shifted specification. -/
theorem mergeAllAux_eq_spec :
    ∀ (srcs : List DB) (t : DB), dbWF t → (∀ s ∈ srcs, dbWF s) →
      mergeAllAux t srcs = specMergeAll t srcs := by
  intro srcs
  induction srcs with
  | nil => intro t _ _; rfl
  | cons s rest ih =>
    intro t ht hall
    have hs := hall s (List.mem_cons_self s rest)
    show mergeAllAux (mergeDatabase t s (some (targetOffsets t))) rest
      = specMergeAll (dbAppend t (applyOffsets (some (targetOffsets t)) s)) rest
    rw [mergeStep_append t s ht hs]
    exact ih _ (dbWF_append_shift t s ht hs)
      (fun x hx => hall x (List.mem_cons_of_mem s hx))

/-- Merging a well-formed source into the fresh empty target with
`offset_ids=None` inserts it verbatim. -/
theorem mergeDatabase_empty_none (s : DB) (hs : dbWF s) :
    mergeDatabase emptyDB s none = s := by
  obtain ⟨⟨hsf, _⟩, ⟨hss, _⟩, ⟨hst, _⟩, ⟨hsu, _⟩, ⟨hsp, _⟩, _⟩ := hs
  simp only [mergeDatabase, applyOffsets, emptyDB]
  have hf := insertRows_of_fresh ForumRow.id s.forums [] hsf (by simp)
  have hsec := insertRows_of_fresh SectionRow.id s.forum_sections [] hss (by simp)
  have hth := insertRows_of_fresh ThreadRow.id s.forum_threads [] hst (by simp)
  have hu := insertRows_of_fresh UserRow.id s.forum_users [] hsu (by simp)
  have hp := insertRows_of_fresh PostRow.id s.forum_posts [] hsp (by simp)
  simp only [List.nil_append] at hf hsec hth hu hp
  rw [hf, hsec, hth, hu, hp]

/-- A list map by a pointwise-identity function is the identity. -/
theorem map_eq_self_of_eq {α : Type} {f : α → α} {l : List α}
    (h : ∀ a ∈ l, f a = a) : l.map f = l := by
  calc l.map f = l.map id := List.map_congr_left h
    _ = l := List.map_id l

/-- The offsets computed for the first source (from the empty target) are
all zero, and a zero shift leaves the source unchanged. -/
theorem applyOffsets_empty_target (s : DB) :
    applyOffsets (some (targetOffsets emptyDB)) s = s := by
  have h0 : targetOffsets emptyDB = ⟨0, 0, 0, 0, 0⟩ := rfl
  rw [h0]
  have hopt : ∀ v : Option Int, v.map (· + (0 : Int)) = v := by
    intro v; cases v <;> simp
  cases s with
  | mk fo se th us po =>
    simp only [applyOffsets]
    congr 1
    · exact map_eq_self_of_eq fun r _ => by cases r; simp [shiftForum]
    · exact map_eq_self_of_eq fun r _ => by cases r; simp [shiftSection, hopt]
    · exact map_eq_self_of_eq fun r _ => by cases r; simp [shiftThread, hopt]
    · exact map_eq_self_of_eq fun r _ => by cases r; simp [shiftUser]
    · exact map_eq_self_of_eq fun r _ => by cases r; simp [shiftPost, hopt]

theorem dbAppend_empty_left (s : DB) : dbAppend emptyDB s = s := by
  cases s
  simp [dbAppend, emptyDB]

/-- The empty target is trivially well-formed. -/
theorem emptyDB_wf : dbWF emptyDB := by
  refine ⟨⟨List.nodup_nil, ?_⟩, ⟨List.nodup_nil, ?_⟩, ⟨List.nodup_nil, ?_⟩,
    ⟨List.nodup_nil, ?_⟩, ⟨List.nodup_nil, ?_⟩, ?_, ?_, ?_, ?_⟩ <;>
    simp [forumIds, sectionIds, threadIds, userIds, postIds, emptyDB]

/-! ## Claims C6 and C1: the merge with ID offsets -/

/-- C6: for well-formed sources in the fixed schema, the whole merge with
ID offsets enabled is exactly the specification `specMergeAll`: before each
source is merged, the per-table offsets are computed from the **target's**
current `MAX(id)` per table (`targetOffsets` of the accumulated target, not
anything read from the source), the first source's offsets are zero (the
fresh target is empty, and the code's `offset_ids=None` shifts nothing),
and every source row is inserted with its table's offset added to its own
id and the referenced parent table's offset added to each foreign-key
column. -/
theorem merge_offsets_from_target (sources : List DB)
    (h : ∀ s ∈ sources, dbWF s) :
    mergeAllDatabases sources = specMergeAll emptyDB sources := by
  cases sources with
  | nil => rfl
  | cons s rest =>
    have hs := h s (List.mem_cons_self s rest)
    have hrest : ∀ x ∈ rest, dbWF x := fun x hx => h x (List.mem_cons_of_mem s hx)
    show mergeAllAux (mergeDatabase emptyDB s none) rest
      = specMergeAll emptyDB (s :: rest)
    rw [mergeDatabase_empty_none s hs]
    have hspec : specMergeAll emptyDB (s :: rest) = specMergeAll s rest := by
      show specMergeAll (dbAppend emptyDB (applyOffsets (some (targetOffsets emptyDB)) s)) rest
        = specMergeAll s rest
      rw [applyOffsets_empty_target, dbAppend_empty_left]
    rw [hspec]
    exact mergeAllAux_eq_spec rest s hs hrest

/-- C6 witness: two concrete one-forum sources merged by the code equal the
offset-from-target specification. -/
theorem merge_offsets_from_target_witness :
    mergeAllDatabases
        [⟨[⟨1, "src1"⟩], [⟨1, some 1⟩], [⟨1, some 1⟩], [⟨1⟩],
          [⟨1, some 1, some 1, some "hello world"⟩]⟩,
         ⟨[⟨1, "src2"⟩], [⟨1, some 1⟩], [⟨1, some 1⟩], [⟨1⟩],
          [⟨1, some 1, some 1, some "czesc"⟩]⟩]
      = specMergeAll emptyDB
        [⟨[⟨1, "src1"⟩], [⟨1, some 1⟩], [⟨1, some 1⟩], [⟨1⟩],
          [⟨1, some 1, some 1, some "hello world"⟩]⟩,
         ⟨[⟨1, "src2"⟩], [⟨1, some 1⟩], [⟨1, some 1⟩], [⟨1⟩],
          [⟨1, some 1, some 1, some "czesc"⟩]⟩] :=
  merge_offsets_from_target _ (by decide)

/-- C1: for every list of well-formed source databases in the fixed schema
(distinct positive per-table ids, resolving foreign keys), after the merge
with ID offsets enabled into the freshly created target, every table's
primary keys are globally unique, and every foreign-key value
(`forum_sections.forum_id`, `forum_threads.section_id`,
`forum_posts.thread_id`, `forum_posts.user_id`) resolves to a row that
exists in the target. -/
theorem merge_global_integrity (sources : List DB)
    (h : ∀ s ∈ sources, dbWF s) :
    uniqueKeys (mergeAllDatabases sources)
    ∧ fkIntegrity (mergeAllDatabases sources) := by
  have hwf : dbWF (mergeAllDatabases sources) := by
    cases sources with
    | nil => exact emptyDB_wf
    | cons s rest =>
      have hs := h s (List.mem_cons_self s rest)
      show dbWF (mergeAllAux (mergeDatabase emptyDB s none) rest)
      rw [mergeDatabase_empty_none s hs]
      exact mergeAllAux_wf rest s hs (fun x hx => h x (List.mem_cons_of_mem s hx))
  obtain ⟨⟨h1, _⟩, ⟨h2, _⟩, ⟨h3, _⟩, ⟨h4, _⟩, ⟨h5, _⟩, hfk⟩ := hwf
  exact ⟨⟨h1, h2, h3, h4, h5⟩, hfk⟩

/-- C1 witness: global key uniqueness and foreign-key integrity hold on a
concrete two-source merge. -/
theorem merge_global_integrity_witness :
    uniqueKeys (mergeAllDatabases
        [⟨[⟨1, "a"⟩], [⟨1, some 1⟩], [⟨1, some 1⟩], [⟨1⟩],
          [⟨1, some 1, some 1, some "x y"⟩]⟩,
         ⟨[⟨1, "b"⟩], [⟨1, some 1⟩], [⟨1, some 1⟩], [⟨1⟩],
          [⟨1, some 1, some 1, some "z"⟩]⟩])
    ∧ fkIntegrity (mergeAllDatabases
        [⟨[⟨1, "a"⟩], [⟨1, some 1⟩], [⟨1, some 1⟩], [⟨1⟩],
          [⟨1, some 1, some 1, some "x y"⟩]⟩,
         ⟨[⟨1, "b"⟩], [⟨1, some 1⟩], [⟨1, some 1⟩], [⟨1⟩],
          [⟨1, some 1, some 1, some "z"⟩]⟩]) :=
  merge_global_integrity _ (by decide)

/-! ## Scan lemmas and claim C4 -/

/-- Membership in the joined, filtered scan candidates: the post row comes
from `forum_posts`, has no `token_analysis` row, and reaches a forum in
the filter through the thread → section → forum join chain. -/
theorem mem_scanCandidates {db : DB} {adb : AnalysisDB} {forums : List String}
    {p : PostRow} (hp : p ∈ scanCandidates db adb forums) :
    p ∈ db.forum_posts
    ∧ hasAnalysisRow adb p.id = false
    ∧ ∃ t ∈ db.forum_threads, p.thread_id = some t.id
        ∧ ∃ s ∈ db.forum_sections, t.section_id = some s.id
          ∧ ∃ f ∈ db.forums, s.forum_id = some f.id
            ∧ f.spider_name ∈ forums := by
  simp only [scanCandidates, List.mem_flatMap, List.mem_filter,
    List.mem_ite_nil_right, List.mem_singleton, Bool.and_eq_true,
    Bool.not_eq_true', beq_iff_eq] at hp
  obtain ⟨p', hp', t, ⟨ht, htid⟩, s, ⟨hs, hsid⟩, f, ⟨hf, hfid⟩, ⟨hcontains, hnorow⟩, rfl⟩ := hp
  refine ⟨hp', hnorow, t, ht, htid, s, hs, hsid, f, hf, hfid, ?_⟩
  exact List.elem_iff.1 hcontains

/-- C4 counterexample: the scan query has no condition on `p.content`.  On
a database holding a single post whose content is the empty string (and no
analysis row for it), `get_posts_to_analyze` returns that post, so the scan
does not return "only posts whose content is non-empty". -/
theorem scan_returns_empty_content_post :
    getPostsToAnalyze
        ⟨[⟨1, "a"⟩], [⟨1, some 1⟩], [⟨1, some 1⟩], [],
          [⟨1, some 1, some 1, some ""⟩]⟩
        ⟨[], []⟩ [] 10
      = [(1, some "")] := by decide

/-- C4 (amended): for every forum filter and batch limit, the scan returns
only posts which have no corresponding `token_analysis` row, restricted to
the given source names (or to all forums auto-detected from the unified
database's `forums` table when the filter is empty), ordered ascending by
post primary key, and containing at most the requested number of records.
(The claim's additional "content is non-empty" condition does not hold:
the query has no content filter — see the counterexample.) -/
theorem scan_only_unanalyzed_sorted_limited (db : DB) (adb : AnalysisDB)
    (forums_to_analyze : List String) (batch_size : Nat) :
    (getPostsToAnalyze db adb forums_to_analyze batch_size).length ≤ batch_size
    ∧ List.Sorted (· ≤ ·)
        ((getPostsToAnalyze db adb forums_to_analyze batch_size).map Prod.fst)
    ∧ ∀ pr ∈ getPostsToAnalyze db adb forums_to_analyze batch_size,
        hasAnalysisRow adb pr.1 = false
        ∧ ∃ p ∈ db.forum_posts, p.id = pr.1 ∧ p.content = pr.2
          ∧ ∃ t ∈ db.forum_threads, p.thread_id = some t.id
            ∧ ∃ s ∈ db.forum_sections, t.section_id = some s.id
              ∧ ∃ f ∈ db.forums, s.forum_id = some f.id
                ∧ f.spider_name ∈ effectiveForums db forums_to_analyze := by
  refine ⟨?_, ?_, ?_⟩
  · simp only [getPostsToAnalyze, List.length_map, List.length_take]
    exact Nat.min_le_left _ _
  · have hsorted : List.Sorted postLe
        ((scanCandidates db adb (effectiveForums db forums_to_analyze)).insertionSort postLe) :=
      List.sorted_insertionSort postLe _
    have htaken : List.Sorted postLe
        (((scanCandidates db adb (effectiveForums db forums_to_analyze)).insertionSort postLe).take
          batch_size) :=
      List.Pairwise.sublist (List.take_sublist _ _) hsorted
    simp only [getPostsToAnalyze, List.map_map]
    exact List.Pairwise.map _ (fun a b h => h) htaken
  · intro pr hpr
    simp only [getPostsToAnalyze, List.mem_map] at hpr
    obtain ⟨p, hp, rfl⟩ := hpr
    have hcand : p ∈ scanCandidates db adb (effectiveForums db forums_to_analyze) := by
      have := List.mem_of_mem_take hp
      simpa using this
    obtain ⟨hmem, hnorow, t, ht, htid, s, hs, hsid, f, hf, hfid, hspider⟩ :=
      mem_scanCandidates hcand
    exact ⟨hnorow, p, hmem, rfl, rfl, t, ht, htid, s, hs, hsid, f, hf, hfid, hspider⟩

/-- C4 witness: the amended scan properties instantiated on a concrete
database with one pending post. -/
theorem scan_only_unanalyzed_sorted_limited_witness :
    hasAnalysisRow ⟨[], []⟩ 1 = false
    ∧ (getPostsToAnalyze
        ⟨[⟨1, "a"⟩], [⟨1, some 1⟩], [⟨1, some 1⟩], [],
          [⟨1, some 1, some 1, some "hi"⟩]⟩ ⟨[], []⟩ [] 10).length ≤ 10 :=
  ⟨((scan_only_unanalyzed_sorted_limited
      ⟨[⟨1, "a"⟩], [⟨1, some 1⟩], [⟨1, some 1⟩], [],
        [⟨1, some 1, some 1, some "hi"⟩]⟩ ⟨[], []⟩ [] 10).2.2
      (1, some "hi") (by decide)).1,
    (scan_only_unanalyzed_sorted_limited
      ⟨[⟨1, "a"⟩], [⟨1, some 1⟩], [⟨1, some 1⟩], [],
        [⟨1, some 1, some 1, some "hi"⟩]⟩ ⟨[], []⟩ [] 10).1⟩

/-! ## Persistence lemmas and claims C2, C3, C9 -/

/-- Upserting a record with a different `post_id` leaves the rows for a
given `post_id` untouched. -/
theorem saveAnalysisResult_filter_ne {tbl : List TokenAnalysisResult}
    {r : TokenAnalysisResult} {pid : Int} (h : r.post_id ≠ pid) :
    (saveAnalysisResult tbl r).filter (fun x => x.post_id == pid)
      = tbl.filter (fun x => x.post_id == pid) := by
  simp only [saveAnalysisResult, List.filter_append]
  have h1 : List.filter (fun x => x.post_id == pid) [r] = [] := by
    simp [List.filter_cons, h]
  rw [h1, List.append_nil, List.filter_filter]
  apply List.filter_congr
  intro x _
  by_cases hx : x.post_id = pid
  · have h2 : ¬pid = r.post_id := fun hc => h hc.symm
    simp [hx, h2]
  · simp [hx]

/-- Running the per-record save loop on records none of which carries a
given `post_id` leaves that post's rows untouched. -/
theorem runSaves_filter_ne (commitOk : Int → Bool) {pid : Int} :
    ∀ (results tbl : List TokenAnalysisResult),
      (∀ x ∈ results, x.post_id ≠ pid) →
      (runSaves commitOk tbl results).filter (fun x => x.post_id == pid)
        = tbl.filter (fun x => x.post_id == pid) := by
  intro results
  induction results with
  | nil => intro tbl _; rfl
  | cons r rs ih =>
    intro tbl hall
    have step : runSaves commitOk tbl (r :: rs)
        = runSaves commitOk
            (if commitOk r.post_id then saveAnalysisResult tbl r else tbl) rs := rfl
    rw [step, ih _ (fun x hx => hall x (List.mem_cons_of_mem r hx))]
    by_cases hc : commitOk r.post_id
    · rw [if_pos hc]
      exact saveAnalysisResult_filter_ne (hall r (List.mem_cons_self r rs))
    · rw [if_neg hc]

/-- The statistics update never touches the `token_analysis` table. -/
theorem updateAnalysisStats_token_analysis (today : String) (adb : AnalysisDB)
    (batch : List TokenAnalysisResult) :
    (updateAnalysisStats today adb batch).token_analysis = adb.token_analysis := by
  unfold updateAnalysisStats
  split <;> rfl

/-- Every sequential batch result carries the `post_id` of a scanned
post. -/
theorem mem_batchResults_post_id {env : AnalyzerEnv}
    {posts : List (Int × Option String)} {r : TokenAnalysisResult}
    (hr : r ∈ batchResults env posts) : ∃ pc ∈ posts, r.post_id = pc.1 := by
  simp only [batchResults, List.mem_filterMap] at hr
  obtain ⟨pc, hpc, hmap⟩ := hr
  rcases Option.map_eq_some'.1 hmap with ⟨c, _, rfl⟩
  exact ⟨pc, hpc, rfl⟩

/-- Every worker result carries the `post_id` of a post of its chunk. -/
theorem mem_workerResults_post_id {env : AnalyzerEnv}
    {chunk : List (Int × Option String)} {r : TokenAnalysisResult}
    (hr : r ∈ processChunkWorkerStatic env chunk) :
    ∃ pc ∈ chunk, r.post_id = pc.1 := by
  simp only [processChunkWorkerStatic, List.mem_filterMap] at hr
  obtain ⟨pc, hpc, hmap⟩ := hr
  rcases Option.map_eq_some'.1 hmap with ⟨c, _, rfl⟩
  exact ⟨pc, hpc, rfl⟩

/-- The chunking partitions the batch: flattening the chunks gives back
the batch. -/
theorem chunksOf_flatten {α : Type} : ∀ (n : Nat) (l : List α),
    (chunksOf n l).flatten = l
  | _, [] => by simp [chunksOf]
  | 0, _ :: _ => by simp [chunksOf]
  | n + 1, x :: xs => by
    rw [chunksOf]
    simp only [List.flatten_cons]
    rw [chunksOf_flatten (n + 1) (xs.drop n)]
    exact List.take_append_drop (n + 1) (x :: xs)
termination_by n l => l.length
decreasing_by
  simp only [List.length_cons, List.length_drop]
  omega

/-- Scanned posts never have an existing analysis row. -/
theorem scan_post_ids_not_analyzed {db : DB} {adb : AnalysisDB}
    {forums_to_analyze : List String} {batch_size : Nat} :
    ∀ pc ∈ getPostsToAnalyze db adb forums_to_analyze batch_size,
      hasAnalysisRow adb pc.1 = false := by
  intro pc hpc
  simp only [getPostsToAnalyze, List.mem_map] at hpc
  obtain ⟨p, hp, rfl⟩ := hpc
  have hcand : p ∈ scanCandidates db adb (effectiveForums db forums_to_analyze) := by
    simpa using List.mem_of_mem_take hp
  exact (mem_scanCandidates hcand).2.1

/-- C2: a post that already has its (unique) `token_analysis` row is never
re-analyzed by another run of the analyze-and-persist step: the scan skips
it (its `LEFT JOIN … IS NULL` test fails), no second upsert happens for its
`post_id`, and after the run the table still holds exactly the first call's
row for that post — on the sequential and the worker-pool path alike. -/
theorem analyze_rerun_no_duplicate (env : AnalyzerEnv) (mp : MpConfig) (db : DB)
    (adb : AnalysisDB) (forums_to_analyze : List String) (batch_size : Nat)
    (r : TokenAnalysisResult)
    (hr : adb.token_analysis.filter (fun x => x.post_id == r.post_id) = [r]) :
    (processBatch env mp db adb forums_to_analyze batch_size).token_analysis.filter
      (fun x => x.post_id == r.post_id) = [r] := by
  have hrow : hasAnalysisRow adb r.post_id = true := by
    have hmemf : r ∈ adb.token_analysis.filter (fun x => x.post_id == r.post_id) := by
      rw [hr]; exact List.mem_singleton_self r
    have hmem := List.mem_of_mem_filter hmemf
    simp only [hasAnalysisRow, List.any_eq_true, beq_iff_eq]
    exact ⟨r, hmem, rfl⟩
  have hscan : ∀ pc ∈ getPostsToAnalyze db adb forums_to_analyze batch_size,
      pc.1 ≠ r.post_id := by
    intro pc hpc heq
    have hfalse := scan_post_ids_not_analyzed pc hpc
    rw [heq, hrow] at hfalse
    cases hfalse
  simp only [processBatch]
  split
  · exact hr
  split
  · -- worker-pool path
    rw [processBatchMultiprocessing, updateAnalysisStats_token_analysis]
    apply runSaves_filter_ne _ _ _ ?_ |>.trans hr
    intro x hx heq
    rcases (by simpa using hx :
        ∃ c ∈ chunksOf mp.chunk_size
            (getPostsToAnalyze db adb forums_to_analyze batch_size),
          x ∈ processChunkWorkerStatic env c) with ⟨chunk, hchunk, hxres⟩
    rcases mem_workerResults_post_id hxres with ⟨pc, hpc, hpid⟩
    have hpc' : pc ∈ getPostsToAnalyze db adb forums_to_analyze batch_size := by
      rw [← chunksOf_flatten mp.chunk_size
        (getPostsToAnalyze db adb forums_to_analyze batch_size)]
      exact List.mem_flatten.2 ⟨chunk, hchunk, hpc⟩
    exact hscan pc hpc' (hpid ▸ heq)
  · -- sequential path
    rw [processBatchSequential, updateAnalysisStats_token_analysis]
    apply runSaves_filter_ne _ _ _ ?_ |>.trans hr
    intro x hx heq
    rcases mem_batchResults_post_id hx with ⟨pc, hpc, hpid⟩
    exact hscan pc hpc (hpid ▸ heq)

/-- C2 witness: re-running `process_batch` over a database whose single
post already has its analysis row leaves that row as the only row for its
`post_id`. -/
theorem analyze_rerun_no_duplicate_witness :
    (⟨[⟨1, 1, 1, 2, "h", "t", 0⟩], []⟩ : AnalysisDB).token_analysis.filter
        (fun x => x.post_id == (⟨1, 1, 1, 2, "h", "t", 0⟩ : TokenAnalysisResult).post_id)
      = [⟨1, 1, 1, 2, "h", "t", 0⟩]
    ∧ (processBatch
          ⟨fun _ => none, defaultTokenConfig, fun _ => "h", "t", 0, "d", fun _ => true⟩
          ⟨true, 50⟩
          ⟨[⟨1, "a"⟩], [⟨1, some 1⟩], [⟨1, some 1⟩], [],
            [⟨1, some 1, some 1, some "hi"⟩]⟩
          ⟨[⟨1, 1, 1, 2, "h", "t", 0⟩], []⟩ [] 100).token_analysis.filter
        (fun x => x.post_id == (⟨1, 1, 1, 2, "h", "t", 0⟩ : TokenAnalysisResult).post_id)
      = [⟨1, 1, 1, 2, "h", "t", 0⟩] :=
  ⟨by decide,
    analyze_rerun_no_duplicate _ _ _ _ _ _ _ (by decide)⟩

/-- C3 counterexample: persisting a batch is not atomic per batch.  With a
two-record batch whose second record's commit fails, exactly the first
record ends up persisted — a partial subset of the batch, neither all of
it nor none of it. -/
theorem batch_persist_partial_subset :
    (processBatchSequential
        ⟨fun _ => none, defaultTokenConfig, fun _ => "h", "t", 0, "d",
          fun pid => pid == 1⟩
        ⟨[], []⟩ [(1, some "aa"), (2, some "bb")]).token_analysis.map
      TokenAnalysisResult.post_id = [1] := by decide

theorem runSaves_cons_true (tbl : List TokenAnalysisResult)
    (r : TokenAnalysisResult) (l : List TokenAnalysisResult) :
    runSaves (fun _ => true) tbl (r :: l)
      = runSaves (fun _ => true) (saveAnalysisResult tbl r) l := by
  simp [runSaves]

/-- C3 (amended): persistence is atomic per record, not per batch — each
record's upsert commits in its own transaction, and a commit failure skips
exactly that record while the rest of the batch persists: the save loop
with fallible commits equals the all-successful save loop run on just the
records whose commit succeeds. -/
theorem persist_atomic_per_record (commitOk : Int → Bool)
    (results : List TokenAnalysisResult) (tbl : List TokenAnalysisResult) :
    runSaves commitOk tbl results
      = runSaves (fun _ => true) tbl
          (results.filter (fun x => commitOk x.post_id)) := by
  induction results generalizing tbl with
  | nil => rfl
  | cons r rs ih =>
    have step : runSaves commitOk tbl (r :: rs)
        = runSaves commitOk
            (if commitOk r.post_id then saveAnalysisResult tbl r else tbl) rs := rfl
    by_cases hc : commitOk r.post_id
    · rw [step, if_pos hc, ih]
      simp [List.filter_cons, hc, runSaves_cons_true]
    · have hcf : commitOk r.post_id = false := by simpa using hc
      rw [step, if_neg hc, ih]
      simp [List.filter_cons, hcf]

/-- C9: the `analysis_stats` DDL lacks the `UNIQUE` constraint on
`analysis_date` that both the spec's schema and the code's own
`INSERT OR REPLACE` presuppose, so the `OR REPLACE` clause never fires
(the only constraint is the freshly assigned autoincrement key): persisting
a second batch on the same date **appends** a second row with the same
`analysis_date` instead of replacing the day's single row. -/
theorem stats_second_batch_same_date_appends :
    ((updateAnalysisStats "2026-10-12"
        (updateAnalysisStats "2026-10-12" ⟨[], []⟩
          [⟨1, 1, 1, 2, "h", "t", 3⟩])
        [⟨1, 1, 1, 2, "h", "t", 3⟩]).analysis_stats.map
      AnalysisStatsRow.analysis_date) = ["2026-10-12", "2026-10-12"] := by decide

/-! ## forum_users processing: claims C8 and C10 -/

/-- C8 counterexample: a `forum_users` row whose `username` value is the
empty string is **not** given the `"{source}_"` tag — the code guards the
rewrite with Python truthiness (`if row_list[username_idx]:`), so the
empty username passes through unchanged (while the provenance column is
still synthesized).  "Every username is prefixed" is therefore false. -/
theorem empty_username_not_tagged :
    (processUserRow ["id", "username"] "src1" [.int 1, .text ""]).getD 1 .null
      = SqlValue.text ""
    ∧ SqlValue.text "" ≠ SqlValue.text ("src1" ++ "_" ++ "") := by
  constructor <;> decide

/-- C8 (amended): when the source's `forum_users` table lacks the
provenance column, the column list is extended with `forum_id` and every
row gets the source's forum name appended as its value; and every row
whose `username` value is truthy (in particular every non-NULL, non-empty
username) has that value replaced by `"{forum_name}_{value}"` before
insertion.  (Rows with a NULL or empty username keep their username
unchanged — see the counterexample and claim C10.) -/
theorem users_provenance_and_username_tag (forum_name : String)
    (cols : List String) (row : List SqlValue)
    (hno : cols.contains "forum_id" = false)
    (hu : "username" ∈ cols)
    (hlen : row.length = cols.length)
    (htruthy : (row.getD (cols.indexOf "username") SqlValue.null).truthy = true) :
    processedUserColumns cols = cols ++ ["forum_id"]
    ∧ processUserRow cols forum_name row
      = (row.set (cols.indexOf "username")
          (SqlValue.text (forum_name ++ "_"
            ++ (row.getD (cols.indexOf "username") SqlValue.null).pyStr)))
        ++ [SqlValue.text forum_name] := by
  have hmemno : "forum_id" ∉ cols := by simpa using hno
  have hcols : processedUserColumns cols = cols ++ ["forum_id"] := by
    simp [processedUserColumns, hmemno]
  refine ⟨hcols, ?_⟩
  have hidx : (cols ++ ["forum_id"]).indexOf "username" = cols.indexOf "username" :=
    List.indexOf_append_of_mem hu
  have hlt : cols.indexOf "username" < row.length := by
    rw [hlen]; exact List.indexOf_lt_length.2 hu
  have humem : "username" ∈ cols ++ ["forum_id"] := List.mem_append_left _ hu
  have hgetE : (row ++ [SqlValue.text forum_name])[cols.indexOf "username"]?
      = row[cols.indexOf "username"]? := List.getElem?_append_left hlt
  have htruthyE := htruthy
  rw [List.getD_eq_getElem?_getD] at htruthyE
  have hset : ∀ (x : SqlValue) (t : List SqlValue),
      (row ++ t).set (cols.indexOf "username") x
        = row.set (cols.indexOf "username") x ++ t :=
    fun x t => List.set_append_left _ x hlt
  simp [processUserRow, hmemno, hcols, hidx, humem, hgetE, htruthyE, hset]

/-- C8 witness: a two-column `forum_users` row with username `"alice"`
from source `"src1"` gets `forum_id = "src1"` synthesized and its username
tagged to `"src1_alice"`. -/
theorem users_provenance_and_username_tag_witness :
    processedUserColumns ["id", "username"] = ["id", "username"] ++ ["forum_id"]
    ∧ processUserRow ["id", "username"] "src1" [.int 7, .text "alice"]
      = ([SqlValue.int 7, SqlValue.text "alice"].set
          ((["id", "username"] : List String).indexOf "username")
          (SqlValue.text ("src1" ++ "_"
            ++ (([SqlValue.int 7, SqlValue.text "alice"].getD
                ((["id", "username"] : List String).indexOf "username")
                SqlValue.null).pyStr))))
        ++ [SqlValue.text "src1"] :=
  users_provenance_and_username_tag "src1" ["id", "username"]
    [.int 7, .text "alice"] (by decide) (by decide) (by decide) (by decide)

/-- C10: during the `forum_users` processing, only rows whose username
value is truthy receive the `"{source}_"` tag; a row with a NULL or
empty-string username is passed through with its username value unchanged,
while the rest of the row — including the synthesized provenance column —
is processed exactly like every other row. -/
theorem username_tag_only_truthy (forum_name : String) (cols : List String)
    (row : List SqlValue)
    (hu : "username" ∈ cols)
    (hlen : row.length = cols.length) :
    (row.getD (cols.indexOf "username") SqlValue.null = SqlValue.null →
      processUserRow cols forum_name row
        = (if cols.contains "forum_id" then row
           else row ++ [SqlValue.text forum_name]))
    ∧ (row.getD (cols.indexOf "username") SqlValue.null = SqlValue.text "" →
      processUserRow cols forum_name row
        = (if cols.contains "forum_id" then row
           else row ++ [SqlValue.text forum_name]))
    ∧ (∀ s : String,
        row.getD (cols.indexOf "username") SqlValue.null = SqlValue.text s →
        s ≠ "" →
        processUserRow cols forum_name row
          = (if cols.contains "forum_id" then row
             else row ++ [SqlValue.text forum_name]).set
              (cols.indexOf "username")
              (SqlValue.text (forum_name ++ "_" ++ s))) := by
  have hlt : cols.indexOf "username" < row.length := by
    rw [hlen]; exact List.indexOf_lt_length.2 hu
  by_cases hfid : cols.contains "forum_id" = true
  · have hmem : "forum_id" ∈ cols := by simpa using hfid
    have hcols : processedUserColumns cols = cols := by
      simp [processedUserColumns, hmem]
    refine ⟨?_, ?_, ?_⟩
    · intro hval
      rw [List.getD_eq_getElem?_getD] at hval
      simp [processUserRow, hmem, hcols, hu, hval, SqlValue.truthy]
    · intro hval
      rw [List.getD_eq_getElem?_getD] at hval
      simp [processUserRow, hmem, hcols, hu, hval, SqlValue.truthy]
    · intro s hval hs
      rw [List.getD_eq_getElem?_getD] at hval
      simp [processUserRow, hmem, hcols, hu, hval, SqlValue.truthy, hs,
        SqlValue.pyStr]
  · have hmemno : "forum_id" ∉ cols := by simpa using hfid
    have hcols : processedUserColumns cols = cols ++ ["forum_id"] := by
      simp [processedUserColumns, hmemno]
    have hidx : (cols ++ ["forum_id"]).indexOf "username" = cols.indexOf "username" :=
      List.indexOf_append_of_mem hu
    have humem : "username" ∈ cols ++ ["forum_id"] := List.mem_append_left _ hu
    have hgetE : (row ++ [SqlValue.text forum_name])[cols.indexOf "username"]?
        = row[cols.indexOf "username"]? := List.getElem?_append_left hlt
    refine ⟨?_, ?_, ?_⟩
    · intro hval
      rw [List.getD_eq_getElem?_getD] at hval
      simp [processUserRow, hmemno, hcols, hidx, humem, hgetE, hval,
        SqlValue.truthy]
    · intro hval
      rw [List.getD_eq_getElem?_getD] at hval
      simp [processUserRow, hmemno, hcols, hidx, humem, hgetE, hval,
        SqlValue.truthy]
    · intro s hval hs
      rw [List.getD_eq_getElem?_getD] at hval
      simp [processUserRow, hmemno, hcols, hidx, humem, hgetE, hval,
        SqlValue.truthy, hs, SqlValue.pyStr]

/-- C10 witness: a row with a NULL username keeps its NULL username, and
still receives the synthesized provenance column. -/
theorem username_tag_only_truthy_witness :
    processUserRow ["id", "username"] "f" [SqlValue.int 1, SqlValue.null]
      = (if (["id", "username"] : List String).contains "forum_id"
         then [SqlValue.int 1, SqlValue.null]
         else [SqlValue.int 1, SqlValue.null] ++ [SqlValue.text "f"]) :=
  (username_tag_only_truthy "f" ["id", "username"] [SqlValue.int 1, SqlValue.null]
    (by decide) (by decide)).1 (by decide)

/-- C5 (amended): with the shipped default configuration
(`polish_language_factor = 0.75`, `min_word_length = 2`) and the primary
tokenizer unavailable, the worker path produces the same `token_count`
and `character_count` as the sequential path, and both compute the same
`analysis_hash` by applying the identical MD5 hex digest to the raw text;
the word counts differ (sequential is an unfiltered whitespace split, the
worker filters words shorter than 2), and the worker never consults the
primary tokenizer. -/
theorem worker_refines_sequential_tokens (md5hex : String → String) (text : String) :
    (calculateTokens (fun _ => none) defaultTokenConfig text).tokens
      = (calculateTokensWorkerStatic text).tokens
    ∧ (calculateTokens (fun _ => none) defaultTokenConfig text).characters
      = (calculateTokensWorkerStatic text).characters
    ∧ generateAnalysisHash md5hex text = generateAnalysisHashStatic md5hex text := by
  refine ⟨?_, ?_, rfl⟩
  · by_cases h : text = ""
    · simp [calculateTokens, calculateTokensWorkerStatic, h]
    · simp [calculateTokens, calculateTokensWorkerStatic, h,
        calculateTokensSimple, defaultTokenConfig]
  · by_cases h : text = "" <;>
      simp [calculateTokens, calculateTokensWorkerStatic, h]

end ForumsScraper
